import Mathlib

/-!
# Verification of the `percpu` sharded per-CPU value container

Shallow embedding of the Go package `percpu` (files `counter.go` and
`percpu.go`) and proofs about it.

The repository contains:
* a growing container `Values[T]` whose shard table is a CAS-published,
  append-only slice of `*padded[T]` slots (`percpu.go`, `Values.Get` /
  `Values.Do`),
* a growing `Pointer[T]` variant that is identical except that its growth
  loop guard compares with `>` instead of `>=`,
* an older fixed-size `Pointer[T]` variant whose shard slice is allocated
  once at construction with length `runtime.GOMAXPROCS(0)`,
* a `Counter` built on `Values[atomic.Int64]` with `Add`, `Load`, `Reset`.

Pointers and allocation are modelled by slot identifiers (`Slot.id`), the
zero-initialisation of `new(padded[T])` by `Slot.initVal = 0`, and the Go
panic on an out-of-bounds slice index by an `Option`-valued lookup
returning `none`.  Concurrent executions of the counter are modelled as
interleaving traces of the individual atomic events (each `atomic.Int64`
`Add`, `Swap` and `Load` is one event); all slot values and `sum`
accumulators are two's-complement 64-bit integers, modelled as `Int` with
explicit wrapping modulo `2 ^ 64` (`wrap64`).
-/

namespace Percpu

/-- One shard slot, as allocated by `new(padded[T])` in `Values.Get`:
`id` identifies the allocation (distinct ids are distinct slots) and
`initVal` is the value the slot holds when it is created (Go zero value). -/
structure Slot where
  id : Nat
  initVal : Int
deriving DecidableEq, Repr

/-- The shard count chosen by the growth loop body in `Values.Get`
(and both `Pointer.Get` variants):
`newShardCount := runtime.GOMAXPROCS(0); if shardID >= newShardCount
{ newShardCount = shardID + 1 }`. -/
def newShardCount (shardID gomaxprocs : Nat) : Nat :=
  if shardID ≥ gomaxprocs then shardID + 1 else gomaxprocs

/-- The fresh slots allocated by the loop
`for i := nValid; i < newShardCount; i++ { newShards[i] = new(padded[T]) }`:
`count` zero-valued slots with consecutive fresh ids starting at `nid`. -/
def freshSlots (nid count : Nat) : List Slot :=
  (List.range count).map (fun i => ⟨nid + i, 0⟩)

/-- The table built by one execution of the growth loop body of
`Values.Get`: `newShards := make([]*padded[T], newShardCount)`, then
`nValid := copy(newShards, *shards)` (which copies
`min (length old) newShardCount` slot references unchanged), then fresh
zero-valued slots for the remaining indices. -/
def growTable (shardID gomaxprocs : Nat) (old : List Slot) (nid : Nat) : List Slot :=
  let c := newShardCount shardID gomaxprocs
  old.take c ++ freshSlots nid (c - min old.length c)

theorem newShardCount_eq_max (shardID gomaxprocs : Nat) :
    newShardCount shardID gomaxprocs = max gomaxprocs (shardID + 1) := by
  unfold newShardCount
  split <;> omega

theorem growTable_length (shardID gomaxprocs : Nat) (old : List Slot) (nid : Nat) :
    (growTable shardID gomaxprocs old nid).length = max gomaxprocs (shardID + 1) := by
  simp [growTable, freshSlots, newShardCount_eq_max]
  omega

/-- The state of a `Values[T]` container, as far as its shard table is
concerned: the currently published table (the Go `nil` table is the empty
list, which no published table ever is) together with an allocation
counter supplying fresh slot ids. -/
structure VState where
  table : List Slot
  nextId : Nat
deriving DecidableEq, Repr

/-- The state change performed by one successful iteration of the growth
loop in `Values.Get`: build `growTable` and publish it with a successful
`CompareAndSwap`.  `nextId` advances by the number of freshly allocated
slots. -/
def growStep (s : VState) (shardID gomaxprocs : Nat) : VState :=
  ⟨growTable shardID gomaxprocs s.table s.nextId,
    s.nextId + (newShardCount shardID gomaxprocs - min s.table.length (newShardCount shardID gomaxprocs))⟩

/-- One publish event: some `Get` call, whose resolved shard index
satisfied the growth-loop guard `shards == nil || shardID >= len(*shards)`
of `Values.Get`, successfully CASes a grown table in. -/
def Publishes (s1 s2 : VState) : Prop :=
  ∃ shardID gomaxprocs : Nat, s1.table.length ≤ shardID ∧ s2 = growStep s1 shardID gomaxprocs

/-- The allocation invariant: every slot id in the table was handed out by
the allocation counter. -/
def IdsFresh (s : VState) : Prop :=
  ∀ sl ∈ s.table, sl.id < s.nextId

theorem freshSlots_length (nid count : Nat) : (freshSlots nid count).length = count := by
  simp [freshSlots]

/-- When the guard of the growth loop held, the old table is copied whole:
`growTable` extends it. -/
theorem growTable_eq_append (shardID gomaxprocs : Nat) (old : List Slot) (nid : Nat)
    (h : old.length ≤ shardID) :
    growTable shardID gomaxprocs old nid
      = old ++ freshSlots nid (newShardCount shardID gomaxprocs - old.length) := by
  have hc : old.length ≤ newShardCount shardID gomaxprocs := by
    rw [newShardCount_eq_max]; omega
  simp [growTable, List.take_of_length_le hc, Nat.min_eq_left hc]

theorem publishes_extends {s1 s2 : VState} (h : Publishes s1 s2) :
    s1.table <+: s2.table := by
  obtain ⟨shardID, gomaxprocs, hguard, rfl⟩ := h
  simp only [growStep, growTable_eq_append _ _ _ _ hguard]
  exact ⟨_, rfl⟩

theorem publishes_length_lt {s1 s2 : VState} (h : Publishes s1 s2) :
    s1.table.length < s2.table.length := by
  obtain ⟨shardID, gomaxprocs, hguard, rfl⟩ := h
  simp only [growStep, growTable_length]
  omega

theorem publishes_nextId_le {s1 s2 : VState} (h : Publishes s1 s2) :
    s1.nextId ≤ s2.nextId := by
  obtain ⟨shardID, gomaxprocs, hguard, rfl⟩ := h
  simp [growStep]

/-- Every slot in the part of the table appended by one publish is fresh
(id at least the old allocation counter) and default-valued. -/
theorem publishes_appended {s1 s2 : VState} (h : Publishes s1 s2) :
    ∀ sl ∈ s2.table.drop s1.table.length, s1.nextId ≤ sl.id ∧ sl.initVal = 0 := by
  obtain ⟨shardID, gomaxprocs, hguard, rfl⟩ := h
  simp only [growStep, growTable_eq_append _ _ _ _ hguard, List.drop_append_of_le_length le_rfl,
    List.drop_length, List.nil_append]
  intro sl hsl
  simp only [freshSlots, List.mem_map, List.mem_range] at hsl
  obtain ⟨i, _, rfl⟩ := hsl
  exact ⟨Nat.le_add_right _ _, rfl⟩

theorem publishes_idsFresh {s1 s2 : VState} (h : Publishes s1 s2) (hf : IdsFresh s1) :
    IdsFresh s2 := by
  obtain ⟨shardID, gomaxprocs, hguard, rfl⟩ := h
  intro sl hsl
  simp only [growStep, growTable_eq_append _ _ _ _ hguard, List.mem_append] at hsl
  have hcnt : s1.table.length ≤ newShardCount shardID gomaxprocs := by
    rw [newShardCount_eq_max]; omega
  rcases hsl with hold | hnew
  · have := hf sl hold
    simp only [growStep]
    omega
  · simp only [freshSlots, List.mem_map, List.mem_range] at hnew
    obtain ⟨i, hi, rfl⟩ := hnew
    simp only [growStep]
    omega

/-- Facts accumulated along any nonempty chain of publish events. -/
theorem publishes_chain {s1 s2 : VState} (h : Relation.TransGen Publishes s1 s2) :
    s1.table <+: s2.table ∧ s1.table.length < s2.table.length ∧ s1.nextId ≤ s2.nextId ∧
      ∀ sl ∈ s2.table.drop s1.table.length, s1.nextId ≤ sl.id ∧ sl.initVal = 0 := by
  induction h with
  | single h =>
    exact ⟨publishes_extends h, publishes_length_lt h, publishes_nextId_le h,
      publishes_appended h⟩
  | @tail b c hab hbc ih =>
    obtain ⟨hpre, hlt, hle, happ⟩ := ih
    obtain ⟨t, ht⟩ := publishes_extends hbc
    refine ⟨hpre.trans (publishes_extends hbc),
      lt_trans hlt (publishes_length_lt hbc),
      le_trans hle (publishes_nextId_le hbc), ?_⟩
    intro sl hsl
    rw [← ht, List.drop_append_of_le_length (le_of_lt hlt), List.mem_append] at hsl
    rcases hsl with hmid | hnew
    · exact happ sl hmid
    · have hmem : sl ∈ c.table.drop b.table.length := by
        rw [← ht, List.drop_left]
        exact hnew
      obtain ⟨h1, h2⟩ := publishes_appended hbc sl hmem
      exact ⟨le_trans hle h1, h2⟩

theorem reflTransGen_publishes_extends {s1 s2 : VState}
    (h : Relation.ReflTransGen Publishes s1 s2) : s1.table <+: s2.table := by
  induction h with
  | refl => exact List.prefix_rfl
  | tail _ hstep ih => exact ih.trans (publishes_extends hstep)

/-- C5: Whenever `Get` triggers growth (no table exists — the empty table —
or the resolved index is outside the current table), the table built by the
growth-loop body has length `max gomaxprocs (shardID + 1)`, the platform
parallelism count at that moment versus the resolved index plus one. -/
theorem grow_new_table_length (shardID gomaxprocs : Nat) (old : List Slot) (nid : Nat)
    (_htrig : old.length ≤ shardID) :
    (growTable shardID gomaxprocs old nid).length = max gomaxprocs (shardID + 1) :=
  growTable_length shardID gomaxprocs old nid

/-- C5 witness: the spec scenario — parallelism is 5, resolved index 4,
empty table: the grown table has length `max 5 5 = 5`. -/
theorem grow_new_table_length_witness :
    ([] : List Slot).length ≤ 4 ∧ (growTable 4 5 [] 0).length = max 5 5 :=
  ⟨by decide, grow_new_table_length 4 5 [] 0 (by decide)⟩

/-- C6: for any two table versions published one before the other, the
earlier is a strict prefix of the later (same slot reference at every old
index, strictly longer), and every appended entry is a freshly allocated
default-valued slot — its id coincides with no slot of the earlier table. -/
theorem shardTable_monotonic_growth {s1 s2 : VState}
    (hfresh : IdsFresh s1) (h : Relation.TransGen Publishes s1 s2) :
    s1.table <+: s2.table ∧ s1.table.length < s2.table.length ∧
      ∀ sl ∈ s2.table.drop s1.table.length, sl.initVal = 0 ∧ ∀ t ∈ s1.table, sl.id ≠ t.id := by
  obtain ⟨hpre, hlt, _, happ⟩ := publishes_chain h
  refine ⟨hpre, hlt, fun sl hsl => ?_⟩
  obtain ⟨hid, hval⟩ := happ sl hsl
  exact ⟨hval, fun t ht => by have := hfresh t ht; omega⟩

/-- C6 witness: from the initial empty state, one publish (resolved index 0,
parallelism 2) yields the two-slot table; the conclusion holds there. -/
theorem shardTable_monotonic_growth_witness :
    IdsFresh ⟨[], 0⟩ ∧
      Relation.TransGen Publishes ⟨[], 0⟩ ⟨[⟨0, 0⟩, ⟨1, 0⟩], 2⟩ ∧
      (([] : List Slot) <+: [⟨0, 0⟩, ⟨1, 0⟩] ∧
        ([] : List Slot).length < ([⟨0, 0⟩, ⟨1, 0⟩] : List Slot).length ∧
        ∀ sl ∈ ([⟨0, 0⟩, ⟨1, 0⟩] : List Slot).drop ([] : List Slot).length,
          sl.initVal = 0 ∧ ∀ t ∈ ([] : List Slot), sl.id ≠ t.id) := by
  have htg : Relation.TransGen Publishes ⟨[], 0⟩ ⟨[⟨0, 0⟩, ⟨1, 0⟩], 2⟩ :=
    Relation.TransGen.single ⟨0, 2, by decide, by decide⟩
  have hf : IdsFresh ⟨[], 0⟩ := by simp [IdsFresh]
  exact ⟨hf, htg, shardTable_monotonic_growth hf htg⟩

/-- C8: references are stable — after any number of publish events (growth
steps), every index of the earlier table still holds the identical slot
reference, so a pointer obtained from an earlier `Get` still addresses the
same slot. -/
theorem get_reference_stable {s1 s2 : VState}
    (h : Relation.ReflTransGen Publishes s1 s2) (i : Nat) (hi : i < s1.table.length) :
    s2.table[i]? = s1.table[i]? := by
  obtain ⟨t, ht⟩ := reflTransGen_publishes_extends h
  rw [← ht, List.getElem?_append_left hi]

/-- C8 witness: growing the two-slot table to three slots (resolved index 2,
parallelism 2) leaves index 0 pointing at the identical slot. -/
theorem get_reference_stable_witness :
    Relation.ReflTransGen Publishes ⟨[⟨0, 0⟩, ⟨1, 0⟩], 2⟩ ⟨[⟨0, 0⟩, ⟨1, 0⟩, ⟨2, 0⟩], 3⟩ ∧
      0 < ([⟨0, 0⟩, ⟨1, 0⟩] : List Slot).length ∧
      ([⟨0, 0⟩, ⟨1, 0⟩, ⟨2, 0⟩] : List Slot)[0]? = ([⟨0, 0⟩, ⟨1, 0⟩] : List Slot)[0]? := by
  have hr : Relation.ReflTransGen Publishes ⟨[⟨0, 0⟩, ⟨1, 0⟩], 2⟩
      ⟨[⟨0, 0⟩, ⟨1, 0⟩, ⟨2, 0⟩], 3⟩ :=
    Relation.ReflTransGen.single ⟨2, 2, by decide, by decide⟩
  exact ⟨hr, by decide, get_reference_stable hr 0 (by decide)⟩

/-- One whole `Values.Get` call in the absence of contention (the CAS, if
reached, succeeds): the table it ends up holding.  The loop guard is
`shards == nil || shardID >= len(*shards)`. -/
def valuesGetTable (shardID gomaxprocs : Nat) (shards : Option (List Slot)) (nid : Nat) :
    List Slot :=
  match shards with
  | none => growTable shardID gomaxprocs [] nid
  | some tbl => if shardID ≥ tbl.length then growTable shardID gomaxprocs tbl nid else tbl

/-- The slot reference `Values.Get` returns: `(*shards)[shardID]`, with
`none` standing for the Go runtime panic on an out-of-range index. -/
def valuesGetSlot (shardID gomaxprocs : Nat) (shards : Option (List Slot)) (nid : Nat) :
    Option Slot :=
  (valuesGetTable shardID gomaxprocs shards nid)[shardID]?

/-- One whole growing `Pointer.Get` call in the absence of contention.  The
only difference from `valuesGetTable` is the loop guard, which is
`shards == nil || shardID > len(*shards)` in the source. -/
def pointerGetTable (shardID gomaxprocs : Nat) (shards : Option (List Slot)) (nid : Nat) :
    List Slot :=
  match shards with
  | none => growTable shardID gomaxprocs [] nid
  | some tbl => if shardID > tbl.length then growTable shardID gomaxprocs tbl nid else tbl

/-- The slot reference the growing `Pointer.Get` returns, `none` standing
for the Go runtime panic on an out-of-range index. -/
def pointerGetSlot (shardID gomaxprocs : Nat) (shards : Option (List Slot)) (nid : Nat) :
    Option Slot :=
  (pointerGetTable shardID gomaxprocs shards nid)[shardID]?

/-- `Values.Get` (the `>=` guard) always leaves the resolved index in
bounds of the table it looks up. -/
theorem valuesGet_index_in_bounds (shardID gomaxprocs : Nat) (shards : Option (List Slot))
    (nid : Nat) : shardID < (valuesGetTable shardID gomaxprocs shards nid).length := by
  unfold valuesGetTable
  match shards with
  | none => rw [growTable_length]; omega
  | some tbl =>
    by_cases h : shardID ≥ tbl.length
    · simp only [h, if_pos]
      rw [growTable_length]; omega
    · simp only [h, if_neg, ite_false]
      omega

/-- C2: at the failing input — a published table of length 2, processor
hint 2, parallelism 3 (GOMAXPROCS was raised after the table was built) —
`Values.Get` (guard `>=`) grows the table and returns the slot at index 2,
but the growing `Pointer.Get` (guard `>`) exits its loop without growing
and indexes `(*shards)[2]` out of bounds: a runtime panic, modelled as
`none`. -/
theorem pointerGet_growth_guard_off_by_one :
    valuesGetSlot 2 3 (some [⟨0, 0⟩, ⟨1, 0⟩]) 2 = some ⟨2, 0⟩ ∧
      pointerGetSlot 2 3 (some [⟨0, 0⟩, ⟨1, 0⟩]) 2 = none := by
  decide

/-- The fixed-size (non-growing) `Pointer` variant: its shard slice is
built once, by `NewPointer`, with one `newVal()` result per index. -/
structure FixedPointer (α : Type) where
  shards : List α
deriving Repr

/-- `NewPointer`: `shards := make([]*T, runtime.GOMAXPROCS(0))` filled by
calling the constructor once per index (`newVal i` is the value the i-th
call returns). -/
def newPointer {α : Type} (gomaxprocs : Nat) (newVal : Nat → α) : FixedPointer α :=
  ⟨(List.range gomaxprocs).map newVal⟩

/-- The fixed-size `Pointer.Get`: `return p.shards[getProcID()]`, with
`none` standing for the Go runtime panic on an out-of-range index. -/
def fixedPointerGet {α : Type} (p : FixedPointer α) (procID : Nat) : Option α :=
  p.shards[procID]?

/-- C9: the fixed-size variant pre-allocates exactly `gomaxprocs` shards at
construction, and a `Get` observing a processor hint at or beyond that
construction-time length faults (out-of-bounds panic, modelled as `none`)
rather than returning a reference. -/
theorem fixedPointer_get_out_of_bounds {α : Type} (gomaxprocs procID : Nat)
    (newVal : Nat → α) (h : gomaxprocs ≤ procID) :
    (newPointer gomaxprocs newVal).shards.length = gomaxprocs ∧
      fixedPointerGet (newPointer gomaxprocs newVal) procID = none := by
  constructor
  · simp [newPointer]
  · apply List.getElem?_eq_none
    simp [newPointer]
    omega

/-- C9 witness: built with parallelism 2 and probed with hint 2, the
fixed-size variant has two shards and `Get` faults. -/
theorem fixedPointer_get_out_of_bounds_witness :
    (2 : Nat) ≤ 2 ∧
      ((newPointer 2 (fun i => i)).shards.length = 2 ∧
        fixedPointerGet (newPointer 2 (fun i => i)) 2 = none) :=
  ⟨by decide, fixedPointer_get_out_of_bounds 2 2 (fun i => i) (by decide)⟩

/-! ## `Values.Do` and the `Counter`

`Do` loads one snapshot of the table (`shards := v.shards.Load()`), treats
a `nil` table as empty, and runs the body of a `for _, shard := range`
loop, which threads whatever state `fn` mutates through the slots in index
order.  We embed the loop as a left fold over the snapshot with an explicit
accumulator. -/

/-- `Values.Do`: `fn` applied to each slot of one snapshot, in index order,
threading an accumulator; a `nil` snapshot (`none`) means zero
applications. -/
def valuesDo {α σ : Type} (shards : Option (List α)) (fn : σ → α → σ) (init : σ) : σ :=
  match shards with
  | none => init
  | some tbl => tbl.foldl fn init

/-- C7: `Values.Do` applies `fn` exactly once to every slot of the loaded
snapshot, in increasing index order, and applies it zero times (returning
without fault) when no table exists yet: instantiating `fn` with the
visit-recording function shows the visit sequence is exactly the snapshot
(and `[]` for `none`). -/
theorem valuesDo_visits_snapshot {α : Type} (shards : Option (List α)) :
    valuesDo shards (fun acc x => acc ++ [x]) ([] : List α) = shards.getD [] := by
  match shards with
  | none => rfl
  | some tbl =>
    show tbl.foldl (fun acc x => acc ++ [x]) [] = tbl
    have h : ∀ (l acc : List α), l.foldl (fun acc x => acc ++ [x]) acc = acc ++ l := by
      intro l
      induction l with
      | nil => simp
      | cons x xs ih => intro acc; simp [List.foldl_cons, ih]
    simpa using h tbl []

/-! ### Interleaved executions of the counter

`Counter.Add` is one atomic `Int64.Add` on the slot `Values.Get` resolved;
each loop iteration of `Counter.Reset` is one atomic `Int64.Swap`.  A
concurrent execution of any number of `Add` calls with one `Reset` is an
arbitrary interleaving of these atomic events, acting on the vector of
slot values plus `Reset`'s local `sum` accumulator.  The values are
`atomic.Int64`s and the accumulator an `int64`, so every addition wraps
modulo `2 ^ 64` (`wrap64` below). -/

/-- One atomic counter event: `add i n` is `Counter.Add(n)` landing on
slot `i` (one atomic fetch-add); `sweep i` is one loop iteration of
`Counter.Reset` on slot `i` (one atomic swap-to-zero, accumulated into
`Reset`'s sum). -/
inductive CEvent where
  | add : Nat → Int → CEvent
  | sweep : Nat → CEvent
deriving DecidableEq, Repr

/-- The slot index an event touches. -/
def CEvent.idx : CEvent → Nat
  | add i _ => i
  | sweep i => i

/-- Whether an event is an `Add`. -/
def CEvent.isAdd : CEvent → Bool
  | add _ _ => true
  | sweep _ => false

/-- Counter state during an interleaved execution: the slot values and the
sum accumulated so far by `Reset`'s sweeps. -/
structure CState where
  slots : List Int
  resetSum : Int
deriving DecidableEq, Repr

/-- The total of the `Add` amounts in a trace. -/
def addTotal : List CEvent → Int
  | [] => 0
  | CEvent.add _ n :: tr => n + addTotal tr
  | CEvent.sweep _ :: tr => addTotal tr

/-- The zero-initialised counter with `m` slots. -/
def initCState (m : Nat) : CState :=
  ⟨List.replicate m 0, 0⟩

theorem sum_set (l : List Int) (i : Nat) (x : Int) (h : i < l.length) :
    (l.set i x).sum = l.sum - l.getD i 0 + x := by
  induction l generalizing i with
  | nil => simp at h
  | cons v vs ih =>
    match i with
    | 0 => simp [List.set]; ring
    | j + 1 =>
      have hj : j < vs.length := by simpa using h
      simp only [List.set, List.sum_cons, List.getD_cons_succ, ih j hj]
      ring

/-! ### Wrapping 64-bit semantics

`Counter` stores `atomic.Int64` values: the atomic `Add`, the `sum += ...`
accumulations in `Load` and `Reset`, and the stored values themselves are
two's-complement 64-bit integers, i.e. every addition wraps modulo
`2 ^ 64`. -/

/-- Two's-complement wrapping of an integer into the `int64` range. -/
def wrap64 (x : Int) : Int :=
  (x + 2 ^ 63) % 2 ^ 64 - 2 ^ 63

/-- Effect of one atomic event under the wrapping `int64` semantics:
`add` wraps the slot value, `sweep` wraps `Reset`'s running sum. -/
def stepEvW (s : CState) : CEvent → CState
  | .add i n => ⟨s.slots.set i (wrap64 (s.slots.getD i 0 + n)), s.resetSum⟩
  | .sweep i => ⟨s.slots.set i 0, wrap64 (s.resetSum + s.slots.getD i 0)⟩

/-- Run a whole interleaving under the wrapping semantics. -/
def runTraceW (s : CState) (tr : List CEvent) : CState :=
  tr.foldl stepEvW s

/-- `Counter.Load` under the wrapping semantics: the `sum += v.Load()`
accumulation is an `int64` addition. -/
def counterLoadW (slots : List Int) : Int :=
  valuesDo (some slots) (fun sum v => wrap64 (sum + v)) 0

theorem wrap64_emod (x : Int) : wrap64 x % 2 ^ 64 = x % 2 ^ 64 := by
  have h63 : (2 : Int) ^ 63 = 9223372036854775808 := by norm_num
  have h64 : (2 : Int) ^ 64 = 18446744073709551616 := by norm_num
  unfold wrap64
  rw [h63, h64]
  omega

theorem wrap64_modeq (x : Int) : wrap64 x ≡ x [ZMOD (2 ^ 64)] :=
  wrap64_emod x

theorem stepEvW_slots_length (s : CState) (e : CEvent) :
    (stepEvW s e).slots.length = s.slots.length := by
  cases e <;> simp [stepEvW]

/-- The conservation invariant modulo `2 ^ 64`: each atomic wrapping event
moves `resetSum + sum of slots` up by its amount, modulo `2 ^ 64`. -/
theorem runTraceW_invariant (tr : List CEvent) (s : CState)
    (hb : ∀ e ∈ tr, e.idx < s.slots.length) :
    (runTraceW s tr).resetSum + (runTraceW s tr).slots.sum
      ≡ s.resetSum + s.slots.sum + addTotal tr [ZMOD (2 ^ 64)] := by
  induction tr generalizing s with
  | nil => simp [runTraceW, addTotal, Int.ModEq.refl]
  | cons e tr ih =>
    have hbe : e.idx < s.slots.length := hb e (List.mem_cons_self e tr)
    have hbtr : ∀ e2 ∈ tr, e2.idx < (stepEvW s e).slots.length := by
      intro e2 he2
      rw [stepEvW_slots_length]
      exact hb e2 (List.mem_cons_of_mem e he2)
    have hih := ih (stepEvW s e) hbtr
    have hstep : (stepEvW s e).resetSum + (stepEvW s e).slots.sum + addTotal tr
        ≡ s.resetSum + s.slots.sum + addTotal (e :: tr) [ZMOD (2 ^ 64)] := by
      cases e with
      | add i n =>
        simp only [stepEvW, CEvent.idx] at hbe ⊢
        rw [sum_set _ _ _ hbe]
        simp only [addTotal]
        have hw := (wrap64_modeq (s.slots.getD i 0 + n)).add_left
          (s.slots.sum - s.slots.getD i 0)
        have hw2 := (hw.add_left s.resetSum).add_right (addTotal tr)
        have heq : s.resetSum + (s.slots.sum - s.slots.getD i 0 + (s.slots.getD i 0 + n))
            + addTotal tr = s.resetSum + s.slots.sum + (n + addTotal tr) := by ring
        exact heq ▸ hw2
      | sweep i =>
        simp only [stepEvW, CEvent.idx] at hbe ⊢
        rw [sum_set _ _ _ hbe]
        simp only [addTotal]
        have hw := (wrap64_modeq (s.resetSum + s.slots.getD i 0)).add_right
          (s.slots.sum - s.slots.getD i 0 + 0)
        have hw2 := hw.add_right (addTotal tr)
        have heq : s.resetSum + s.slots.getD i 0 + (s.slots.sum - s.slots.getD i 0 + 0)
            + addTotal tr = s.resetSum + s.slots.sum + addTotal tr := by ring
        exact heq ▸ hw2
    exact hih.trans hstep

theorem counterLoadW_modeq (slots : List Int) :
    counterLoadW slots ≡ slots.sum [ZMOD (2 ^ 64)] := by
  have h : ∀ (l : List Int) (acc : Int),
      l.foldl (fun sum v => wrap64 (sum + v)) acc ≡ acc + l.sum [ZMOD (2 ^ 64)] := by
    intro l
    induction l with
    | nil => intro acc; simp [Int.ModEq.refl]
    | cons v vs ih =>
      intro acc
      have h1 := ih (wrap64 (acc + v))
      have h2 := (wrap64_modeq (acc + v)).add_right vs.sum
      have heq : acc + v + vs.sum = acc + (v + vs.sum) := by ring
      simpa [List.foldl_cons, List.sum_cons, heq] using h1.trans h2
  simpa [counterLoadW, valuesDo] using h slots 0

/-- C10: under the wrapping `int64` semantics, for any completed
interleaving of `Add` and `Reset`-sweep events on a fresh counter, the sum
`Reset` returned plus the value a subsequent `Load` returns equals the
total amount added — modulo `2 ^ 64`, not over unbounded integers. -/
theorem counter_conservation_wrapping (m : Nat) (tr : List CEvent)
    (hb : ∀ e ∈ tr, e.idx < m) :
    (runTraceW (initCState m) tr).resetSum
        + counterLoadW (runTraceW (initCState m) tr).slots
      ≡ addTotal tr [ZMOD (2 ^ 64)] := by
  have hb2 : ∀ e ∈ tr, e.idx < (initCState m).slots.length := by
    intro e he
    simpa [initCState] using hb e he
  have hinv := runTraceW_invariant tr (initCState m) hb2
  have hload := (counterLoadW_modeq (runTraceW (initCState m) tr).slots).add_left
    (runTraceW (initCState m) tr).resetSum
  have hzero : (initCState m).resetSum + (initCState m).slots.sum + addTotal tr
      = addTotal tr := by
    simp [initCState]
  exact hload.trans (hzero ▸ hinv)

/-- C10 witness: one slot; `Add (2^63)` twice, then a sweep.  The slot
wrapped, yet `Reset`'s return plus `Load`'s return is congruent to
`2 ^ 64` (the exact total) modulo `2 ^ 64`. -/
theorem counter_conservation_wrapping_witness :
    (∀ e ∈ [CEvent.add 0 (2 ^ 63), CEvent.add 0 (2 ^ 63), CEvent.sweep 0], e.idx < 1) ∧
      (runTraceW (initCState 1)
            [CEvent.add 0 (2 ^ 63), CEvent.add 0 (2 ^ 63), CEvent.sweep 0]).resetSum
          + counterLoadW (runTraceW (initCState 1)
            [CEvent.add 0 (2 ^ 63), CEvent.add 0 (2 ^ 63), CEvent.sweep 0]).slots
        ≡ addTotal [CEvent.add 0 (2 ^ 63), CEvent.add 0 (2 ^ 63), CEvent.sweep 0]
          [ZMOD (2 ^ 64)] :=
  ⟨by decide,
    counter_conservation_wrapping 1
      [CEvent.add 0 (2 ^ 63), CEvent.add 0 (2 ^ 63), CEvent.sweep 0] (by decide)⟩

/-- Adds-only traces never touch `resetSum`. -/
theorem runTraceW_resetSum_of_adds (tr : List CEvent) (s : CState)
    (hadds : ∀ e ∈ tr, e.isAdd = true) :
    (runTraceW s tr).resetSum = s.resetSum := by
  induction tr generalizing s with
  | nil => rfl
  | cons e tr ih =>
    have he : e.isAdd = true := hadds e (List.mem_cons_self e tr)
    have htr : ∀ e2 ∈ tr, e2.isAdd = true := fun e2 h2 => hadds e2 (List.mem_cons_of_mem e h2)
    show (runTraceW (stepEvW s e) tr).resetSum = _
    rw [ih _ htr]
    cases e with
    | add i n => rfl
    | sweep i => simp [CEvent.isAdd] at he

/-- `wrap64` always lands in the `int64` range. -/
theorem wrap64_range (x : Int) : -(2 ^ 63) ≤ wrap64 x ∧ wrap64 x < 2 ^ 63 := by
  have h63 : (2 : Int) ^ 63 = 9223372036854775808 := by norm_num
  have h64 : (2 : Int) ^ 64 = 18446744073709551616 := by norm_num
  unfold wrap64
  rw [h63, h64]
  omega

/-- Two integers congruent modulo `2 ^ 64` that both lie in the `int64`
range are equal. -/
theorem int64_eq_of_modeq {a b : Int} (h : a ≡ b [ZMOD (2 ^ 64)])
    (ha1 : -(2 ^ 63) ≤ a) (ha2 : a < 2 ^ 63) (hb1 : -(2 ^ 63) ≤ b) (hb2 : b < 2 ^ 63) :
    a = b := by
  have h63 : (2 : Int) ^ 63 = 9223372036854775808 := by norm_num
  have h64 : (2 : Int) ^ 64 = 18446744073709551616 := by norm_num
  have hmod : a % 18446744073709551616 = b % 18446744073709551616 := by
    have h2 := h
    unfold Int.ModEq at h2
    rw [h64] at h2
    exact h2
  rw [h63] at ha1 ha2 hb1 hb2
  omega

/-- `Load`'s wrapping accumulation always returns an `int64` value. -/
theorem counterLoadW_range (slots : List Int) :
    -(2 ^ 63) ≤ counterLoadW slots ∧ counterLoadW slots < 2 ^ 63 := by
  have h : ∀ (l : List Int) (acc : Int), -(2 ^ 63) ≤ acc → acc < 2 ^ 63 →
      -(2 ^ 63) ≤ l.foldl (fun sum v => wrap64 (sum + v)) acc
        ∧ l.foldl (fun sum v => wrap64 (sum + v)) acc < 2 ^ 63 := by
    intro l
    induction l with
    | nil => intro acc h1 h2; exact ⟨h1, h2⟩
    | cons v vs ih =>
      intro acc h1 h2
      obtain ⟨hw1, hw2⟩ := wrap64_range (acc + v)
      exact ih (wrap64 (acc + v)) hw1 hw2
  have h0 : -(2 : Int) ^ 63 ≤ 0 ∧ (0 : Int) < 2 ^ 63 := by norm_num
  simpa [counterLoadW, valuesDo] using h slots 0 (by norm_num) (by norm_num)

/-- A `Load` over slots that are all zero returns exactly 0 (no wrapping
can occur). -/
theorem counterLoadW_replicate_zero (n : Nat) :
    counterLoadW (List.replicate n 0) = 0 := by
  have hw : wrap64 ((0 : Int) + 0) = 0 := by
    have h63 : (2 : Int) ^ 63 = 9223372036854775808 := by norm_num
    have h64 : (2 : Int) ^ 64 = 18446744073709551616 := by norm_num
    unfold wrap64
    rw [h63, h64]
    decide
  induction n with
  | zero => rfl
  | succ k ih =>
    show (List.replicate (k + 1) (0 : Int)).foldl (fun sum v => wrap64 (sum + v)) 0 = 0
    rw [List.replicate_succ, List.foldl_cons, hw]
    simpa [counterLoadW, valuesDo] using ih

/-- The loop body sequence of `Counter.Reset` on one snapshot: each
iteration runs `sum += v.Swap(0)` — an `int64` accumulation, so it wraps —
and leaves `0` behind.  Returns the final sum and the slot values after
the sweep. -/
def resetGoW (acc : Int) : List Int → Int × List Int
  | [] => (acc, [])
  | v :: vs =>
    let r := resetGoW (wrap64 (acc + v)) vs
    (r.1, 0 :: r.2)

/-- `Counter.Reset` run on one snapshot, uninterleaved: the returned old
total and the slot values it leaves behind. -/
def counterResetW (slots : List Int) : Int × List Int :=
  resetGoW 0 slots

theorem resetGoW_snd (slots : List Int) (acc : Int) :
    (resetGoW acc slots).2 = List.replicate slots.length 0 := by
  induction slots generalizing acc with
  | nil => rfl
  | cons v vs ih =>
    simp only [resetGoW, ih, List.length_cons, List.replicate_succ]

theorem resetGoW_fst_modeq (slots : List Int) (acc : Int) :
    (resetGoW acc slots).1 ≡ acc + slots.sum [ZMOD (2 ^ 64)] := by
  induction slots generalizing acc with
  | nil => simp [resetGoW, Int.ModEq.refl]
  | cons v vs ih =>
    have h1 := ih (wrap64 (acc + v))
    have h2 := (wrap64_modeq (acc + v)).add_right vs.sum
    have heq : acc + v + vs.sum = acc + (v + vs.sum) := by ring
    simpa [resetGoW, List.sum_cons, heq] using h1.trans h2

theorem resetGoW_fst_range (slots : List Int) (acc : Int)
    (h1 : -(2 ^ 63) ≤ acc) (h2 : acc < 2 ^ 63) :
    -(2 ^ 63) ≤ (resetGoW acc slots).1 ∧ (resetGoW acc slots).1 < 2 ^ 63 := by
  induction slots generalizing acc with
  | nil => exact ⟨h1, h2⟩
  | cons v vs ih =>
    obtain ⟨hw1, hw2⟩ := wrap64_range (acc + v)
    simpa [resetGoW] using ih (wrap64 (acc + v)) hw1 hw2

/-- C3 counterexample: the claim's exact equality fails when the total
overflows `int64`.  One slot, `Add (2^63 - 1)` (the largest `int64`) then
`Add 1`: the total added is `2^63`, but the slot wraps to `-(2^63)` and
`Load`, performed after both adds completed, returns `-(2^63) ≠ 2^63`. -/
theorem counter_load_exact_overflow_counterexample :
    (∀ e ∈ [CEvent.add 0 (2 ^ 63 - 1), CEvent.add 0 1], e.idx < 1) ∧
      (∀ e ∈ [CEvent.add 0 (2 ^ 63 - 1), CEvent.add 0 1], e.isAdd = true) ∧
      addTotal [CEvent.add 0 (2 ^ 63 - 1), CEvent.add 0 1] = 2 ^ 63 ∧
      counterLoadW
          (runTraceW (initCState 1) [CEvent.add 0 (2 ^ 63 - 1), CEvent.add 0 1]).slots
        = -(2 ^ 63) ∧
      ¬(counterLoadW
            (runTraceW (initCState 1) [CEvent.add 0 (2 ^ 63 - 1), CEvent.add 0 1]).slots
          = addTotal [CEvent.add 0 (2 ^ 63 - 1), CEvent.add 0 1]) := by
  decide

/-- C3 (amended): after any finite interleaving of `Add` calls (no `Reset`
among them, all landing on existing slots) has completed, `Counter.Load`
returns the total added modulo `2 ^ 64` — exactly the total whenever it
fits in `int64`. -/
theorem counter_load_after_adds_mod (m : Nat) (tr : List CEvent)
    (hb : ∀ e ∈ tr, e.idx < m) (hadds : ∀ e ∈ tr, e.isAdd = true) :
    counterLoadW (runTraceW (initCState m) tr).slots ≡ addTotal tr [ZMOD (2 ^ 64)] ∧
      (-(2 ^ 63) ≤ addTotal tr → addTotal tr < 2 ^ 63 →
        counterLoadW (runTraceW (initCState m) tr).slots = addTotal tr) := by
  have hb2 : ∀ e ∈ tr, e.idx < (initCState m).slots.length := by
    intro e he
    simpa [initCState] using hb e he
  have hinv := runTraceW_invariant tr (initCState m) hb2
  have hrs := runTraceW_resetSum_of_adds tr (initCState m) hadds
  rw [hrs] at hinv
  simp only [initCState, List.sum_replicate, smul_zero, add_zero, zero_add] at hinv
  have hcong := (counterLoadW_modeq (runTraceW (initCState m) tr).slots).trans hinv
  refine ⟨hcong, fun h1 h2 => ?_⟩
  obtain ⟨hr1, hr2⟩ := counterLoadW_range (runTraceW (initCState m) tr).slots
  exact int64_eq_of_modeq hcong hr1 hr2 h1 h2

/-- C3 witness: two adds, `Add 1` on slot 0 and `Add 2` on slot 1, of a
two-slot counter: the total 3 fits in `int64` and `Load` afterwards
returns it exactly. -/
theorem counter_load_after_adds_mod_witness :
    (∀ e ∈ [CEvent.add 0 1, CEvent.add 1 2], e.idx < 2) ∧
      (∀ e ∈ [CEvent.add 0 1, CEvent.add 1 2], e.isAdd = true) ∧
      counterLoadW (runTraceW (initCState 2) [CEvent.add 0 1, CEvent.add 1 2]).slots
        = addTotal [CEvent.add 0 1, CEvent.add 1 2] :=
  ⟨by decide, by decide,
    (counter_load_after_adds_mod 2 [CEvent.add 0 1, CEvent.add 1 2]
        (by decide) (by decide)).2 (by decide) (by decide)⟩

/-- C4 counterexample: `Reset`'s "returns the sum of all values added"
fails when that sum overflows `int64`.  One slot, fresh counter,
`Add (2^63 - 1)` then `Add 1` (total `2^63`): the slot wraps to
`-(2^63)` and `Reset` returns `-(2^63) ≠ 2^63`. -/
theorem counter_reset_exact_overflow_counterexample :
    (∀ x ∈ ([0] : List Int), x = 0) ∧
      (∀ e ∈ [CEvent.add 0 (2 ^ 63 - 1), CEvent.add 0 1], e.idx < ([0] : List Int).length) ∧
      (∀ e ∈ [CEvent.add 0 (2 ^ 63 - 1), CEvent.add 0 1], e.isAdd = true) ∧
      addTotal [CEvent.add 0 (2 ^ 63 - 1), CEvent.add 0 1] = 2 ^ 63 ∧
      (counterResetW
          (runTraceW ⟨[0], 0⟩ [CEvent.add 0 (2 ^ 63 - 1), CEvent.add 0 1]).slots).1
        = -(2 ^ 63) ∧
      ¬((counterResetW
            (runTraceW ⟨[0], 0⟩ [CEvent.add 0 (2 ^ 63 - 1), CEvent.add 0 1]).slots).1
          = addTotal [CEvent.add 0 (2 ^ 63 - 1), CEvent.add 0 1]) := by
  decide

/-- C4 (amended): on a counter that is fresh or freshly reset (all slots
zero), after a completed sequence of `Add` calls, `Counter.Reset` returns
the total added since modulo `2 ^ 64` — exactly that total whenever it
fits in `int64` — and a `Load` performed right after the `Reset` (no
concurrent writers) returns exactly 0. -/
theorem counter_reset_returns_added_mod (start : List Int) (tr : List CEvent)
    (hzero : ∀ x ∈ start, x = 0)
    (hb : ∀ e ∈ tr, e.idx < start.length) (hadds : ∀ e ∈ tr, e.isAdd = true) :
    ((counterResetW (runTraceW ⟨start, 0⟩ tr).slots).1 ≡ addTotal tr [ZMOD (2 ^ 64)] ∧
        (-(2 ^ 63) ≤ addTotal tr → addTotal tr < 2 ^ 63 →
          (counterResetW (runTraceW ⟨start, 0⟩ tr).slots).1 = addTotal tr)) ∧
      counterLoadW (counterResetW (runTraceW ⟨start, 0⟩ tr).slots).2 = 0 := by
  have hinv := runTraceW_invariant tr ⟨start, 0⟩ hb
  have hrs := runTraceW_resetSum_of_adds tr ⟨start, 0⟩ hadds
  have hstart : start.sum = 0 := List.sum_eq_zero hzero
  rw [hrs] at hinv
  simp only [hstart, add_zero, zero_add] at hinv
  have hfst := resetGoW_fst_modeq (runTraceW ⟨start, 0⟩ tr).slots 0
  rw [zero_add] at hfst
  have hcong : (counterResetW (runTraceW ⟨start, 0⟩ tr).slots).1
      ≡ addTotal tr [ZMOD (2 ^ 64)] := hfst.trans hinv
  refine ⟨⟨hcong, fun h1 h2 => ?_⟩, ?_⟩
  · obtain ⟨hr1, hr2⟩ := resetGoW_fst_range (runTraceW ⟨start, 0⟩ tr).slots 0
      (by norm_num) (by norm_num)
    exact int64_eq_of_modeq hcong hr1 hr2 h1 h2
  · rw [counterResetW, resetGoW_snd, counterLoadW_replicate_zero]

/-- C4 witness: fresh two-slot counter, `Add 5` on slot 0 and `Add 7` on
slot 1: `Reset` returns exactly 12 and the following `Load` returns 0. -/
theorem counter_reset_returns_added_mod_witness :
    (∀ x ∈ ([0, 0] : List Int), x = 0) ∧
      (∀ e ∈ [CEvent.add 0 5, CEvent.add 1 7], e.idx < ([0, 0] : List Int).length) ∧
      (∀ e ∈ [CEvent.add 0 5, CEvent.add 1 7], e.isAdd = true) ∧
      ((counterResetW (runTraceW ⟨[0, 0], 0⟩ [CEvent.add 0 5, CEvent.add 1 7]).slots).1
          = addTotal [CEvent.add 0 5, CEvent.add 1 7] ∧
        counterLoadW
          (counterResetW
            (runTraceW ⟨[0, 0], 0⟩ [CEvent.add 0 5, CEvent.add 1 7]).slots).2 = 0) := by
  have h := counter_reset_returns_added_mod [0, 0] [CEvent.add 0 5, CEvent.add 1 7]
    (by decide) (by decide) (by decide)
  exact ⟨by decide, by decide, by decide, h.1.2 (by decide) (by decide), h.2⟩

/-! ### Executions in which `Load` itself is interleaved

To settle the claim about "`Add` calls completed by the time `Load`
returns", the loop iterations of `Counter.Load` must be events of the
interleaving as well: each is one atomic `Int64.Load` of one slot
(`sum += v.Load()`).  A trace ends at the moment `Load` returns, so every
event of the trace — in particular every `add` — has completed by the time
`Load` returns. -/

end Percpu
